import Mathlib

/-!
Verification of the pyio filesystem I/O exercise toolkit.

Files are modelled as lists of bytes (`List Nat`); POSIX `pread`/`pwrite`
semantics (reads truncated at end-of-file, writes zero-fill any gap created
by a seek past end-of-file) are modelled by `fileRead` and `fileWrite`.
Python's arbitrary-precision integers are `Nat`/`Int`.  The float arithmetic
in `_blk_map` (`ceil(float(size)/blksz)`) is modelled as exact real
arithmetic.  `os.urandom` and `random.randint`/`random.shuffle` are modelled
by explicit parameters: the random bytes, the chosen offset within the range
`randint` guarantees, and the permutation produced by `shuffle`.
-/

namespace Pyio

/-- Ceiling division on naturals: `ceilDiv a b = ⌈a / b⌉` for `b > 0`. -/
def ceilDiv (a b : Nat) : Nat :=
  (a + b - 1) / b

/-- The list of block offsets `[0, bsB, 2*bsB, ...]` covering `[0, size)`:
the value computed by `_blk_map` when the block size in bytes `bsB` is
positive (src/lib/pyio.py lines 78-79). -/
def blkOffsets (size bsB : Nat) : List Nat :=
  (List.range (ceilDiv size bsB)).map (fun i => i * bsB)

/-- Model of `_blk_map` from src/lib/pyio.py lines 62-80 (identical in src/pyio.py
lines 64-82).  `size` is the file's size in bytes (`os.stat(...).st_size`),
`bs` the block size in KB.  The code multiplies `bs` by 1024 and returns
`[offset * blksz for offset in range(int(ceil(size/blksz)))]` with no
validation of `bs`:
* `bs * 1024 = 0`: `size/blksz` raises `ZeroDivisionError`, modelled `none`;
* `bs * 1024 < 0`: the quotient is `≤ 0` for `size > 0` and `0` for
  `size = 0`, its ceiling lies in `(-size, 0]`, so `int(...)` is `≤ 0` and
  `range` of it is empty — the function returns `[]`;
* `bs * 1024 > 0`: `int(ceil(size/blksz))` is the exact ceiling `ceilDiv`
  (float arithmetic modelled as exact). -/
def blk_map (size : Nat) (bs : Int) : Option (List Nat) :=
  if bs * 1024 = 0 then none
  else if bs * 1024 < 0 then some []
  else some (blkOffsets size (bs * 1024).toNat)

/-- POSIX positioned read: `os.lseek(fd, pos, 0); os.read(fd, n)` on a file
whose bytes are `f` returns the bytes of `f` in `[pos, pos+n)`, truncated at
end-of-file. -/
def fileRead (f : List Nat) (pos n : Nat) : List Nat :=
  (f.drop pos).take n

/-- POSIX positioned write: `os.lseek(fd, pos, 0); os.write(fd, buf)` on a
file whose bytes are `f`: the region between the old end-of-file and `pos`
(if any) reads back as zeros, `buf` overwrites `[pos, pos + buf.length)`,
and bytes beyond that are unchanged. -/
def fileWrite (f : List Nat) (pos : Nat) (buf : List Nat) : List Nat :=
  let padded := f ++ List.replicate (pos - f.length) 0
  padded.take pos ++ buf ++ padded.drop (pos + buf.length)

/-- The sequential copy loop of `cp` (src/lib/pyio.py lines 251-255):
`buf = os.read(fdsrc, blksz); if not buf: break; os.write(fddst, buf)`,
repeated; `src` is the unread suffix of the source and the result is the
byte sequence appended to the (truncated) destination. -/
def cp_loop (bsB : Nat) (src : List Nat) : List Nat :=
  if h : src.take bsB = [] then []
  else src.take bsB ++ cp_loop bsB (src.drop bsB)
termination_by src.length
decreasing_by
  rw [List.take_eq_nil_iff] at h
  push_neg at h
  have := List.length_drop bsB src
  have h1 : src ≠ [] := h.2
  have h2 : bsB ≠ 0 := h.1
  have : 0 < src.length := List.length_pos.mpr h1
  omega

/-- The destination-content effect of the offset-wise copy loop shared by
`cp_conv` and `cp_rand` (src/lib/pyio.py lines 300-305 and 350-355): for
each offset popped from the block map, seek both descriptors to the offset,
read up to `blksz` bytes from the source there and write them to the
destination there.  The destination starts empty (`O_TRUNC`). -/
def copy_offsets (src : List Nat) (bsB : Nat) (offs : List Nat) : List Nat :=
  offs.foldl (fun dst off => fileWrite dst off (fileRead src off bsB)) []

/-- The order in which `while blk_map: blk_map.pop()` consumes a list
(src/lib/pyio.py lines 350-351 and 402-403): repeatedly pop the last
element. -/
def pop_back : List Nat → List Nat
  | [] => []
  | x :: xs => (x :: xs).getLastD 0 :: pop_back ((x :: xs).dropLast)
termination_by l => l.length
decreasing_by
  simp [List.length_dropLast]

/-- The order in which the converging loop consumes a list
(src/lib/pyio.py lines 287, 300-301 and 425, 429-430):
`idx = cycle([0, -1]).next; while blk_map: blk_map.pop(idx())` — pop the
first remaining element, then the last, alternating.  The `Bool` is true
when the next pop is from the front. -/
def conv_pop : Bool → List Nat → List Nat
  | _, [] => []
  | true, x :: xs => x :: conv_pop false xs
  | false, x :: xs => (x :: xs).getLastD 0 :: conv_pop true ((x :: xs).dropLast)
termination_by _ l => l.length
decreasing_by
  all_goals simp [List.length_dropLast]

/-- The offset visit order of `cp_rand`/`r_rand`: `random.shuffle(blk_map)`
(modelled by the permutation `shuffle`) followed by popping from the back. -/
def rand_order (shuffle : List Nat → List Nat) (m : List Nat) : List Nat :=
  pop_back (shuffle m)

/-- Model of `cp` from src/lib/pyio.py lines 222-263, as a function from the source
file's bytes to the destination file's final bytes.  `samefile` is the
result of `_samefile(src, dst)` after the directory destination has been
resolved to `dst/basename(src)`; when it holds the function raises
(`none`).  Otherwise the destination is opened with
`O_CREAT|O_TRUNC|O_WRONLY` and filled by the sequential read/write loop. -/
def cp (samefile : Bool) (src : List Nat) (bs : Nat) : Option (List Nat) :=
  if samefile then none
  else some (cp_loop (bs * 1024) src)

/-- Model of `cp_conv` from src/lib/pyio.py lines 266-313: after the same-file check,
build the block map of the source, then copy block by block in converging
order onto the truncated destination.  A `blk_map` failure propagates. -/
def cp_conv (samefile : Bool) (src : List Nat) (bs : Nat) : Option (List Nat) :=
  if samefile then none
  else (blk_map src.length (bs : Int)).map fun m =>
    copy_offsets src (bs * 1024) (conv_pop true m)

/-- Model of `cp_rand` from src/lib/pyio.py lines 316-363: after the same-file check,
build the block map of the source, shuffle it, then copy block by block in
pop-from-back order onto the truncated destination. -/
def cp_rand (samefile : Bool) (src : List Nat) (bs : Nat)
    (shuffle : List Nat → List Nat) : Option (List Nat) :=
  if samefile then none
  else (blk_map src.length (bs : Int)).map fun m =>
    copy_offsets src (bs * 1024) (rand_order shuffle m)

/-- Model of `r_rand` from src/lib/pyio.py lines 388-409, returning the sequence of
offsets it reads (its only observable behaviour): shuffle the block map of
a file of `fsize` bytes and pop from the back. -/
def r_rand (fsize : Nat) (bs : Nat) (shuffle : List Nat → List Nat) :
    Option (List Nat) :=
  (blk_map fsize (bs : Int)).map (rand_order shuffle)

/-- Model of `r_conv` from src/lib/pyio.py lines 412-436, returning the sequence of
offsets it reads: pop the block map alternately from the front and the
back. -/
def r_conv (fsize : Nat) (bs : Nat) : Option (List Nat) :=
  (blk_map fsize (bs : Int)).map (conv_pop true)

/-- Model of `w_rand_blk` from src/lib/pyio.py lines 189-219 (identical logic in
src/pyio.py lines 194-226), as a function from the file's current bytes to
its final bytes.  `rnd` models `os.urandom(1024)` and `off` the value of
`random.randint(0, size - blksz)`.  The code stats the file, builds
`buf = os.urandom(1024) * blksz`, raises `ValueError` when
`size < blksz * 1024`, and otherwise opens the file with
`O_CREAT|O_TRUNC|O_WRONLY` (truncating it to zero length), seeks to `off`
and writes `buf`. -/
def w_rand_blk (file : List Nat) (bs : Nat) (rnd : List Nat) (off : Nat) :
    Option (List Nat) :=
  let buf := (List.replicate bs rnd).flatten
  if file.length < bs * 1024 then none
  else some (fileWrite [] off buf)

theorem ceilDiv_le_iff {b : Nat} (hb : 0 < b) {a c : Nat} :
    ceilDiv a b ≤ c ↔ a ≤ c * b := by
  unfold ceilDiv
  rw [Nat.div_le_iff_le_mul_add_pred hb]
  ring_nf
  omega

theorem lt_ceilDiv_iff {b : Nat} (hb : 0 < b) {a c : Nat} :
    c < ceilDiv a b ↔ c * b < a := by
  rw [← Nat.not_le, ← Nat.not_le, ceilDiv_le_iff hb]

theorem le_ceilDiv_mul {b : Nat} (hb : 0 < b) (a : Nat) :
    a ≤ ceilDiv a b * b :=
  (ceilDiv_le_iff hb).mp le_rfl

theorem ceilDiv_eq_ceil {b : Nat} (hb : 0 < b) (a : Nat) :
    ceilDiv a b = ⌈(a : ℚ) / (b : ℚ)⌉₊ := by
  have hbq : (0 : ℚ) < (b : ℚ) := by exact_mod_cast hb
  apply le_antisymm
  · rw [ceilDiv_le_iff hb, ← Nat.cast_le (α := ℚ)]
    push_cast
    rw [← div_le_iff₀ hbq]
    exact Nat.le_ceil _
  · rw [Nat.ceil_le, div_le_iff₀ hbq]
    exact_mod_cast le_ceilDiv_mul hb a

theorem length_blkOffsets (size bsB : Nat) :
    (blkOffsets size bsB).length = ceilDiv size bsB := by
  simp [blkOffsets]

theorem getElem_blkOffsets {size bsB i : Nat}
    (h : i < (blkOffsets size bsB).length) :
    (blkOffsets size bsB)[i] = i * bsB := by
  simp [blkOffsets]

theorem mem_blkOffsets {size bsB : Nat} (hb : 0 < bsB) (o : Nat) :
    o ∈ blkOffsets size bsB ↔ ∃ k, o = k * bsB ∧ o < size := by
  simp only [blkOffsets, List.mem_map, List.mem_range]
  constructor
  · rintro ⟨k, hk, rfl⟩
    exact ⟨k, rfl, (lt_ceilDiv_iff hb).mp hk⟩
  · rintro ⟨k, rfl, hlt⟩
    exact ⟨k, (lt_ceilDiv_iff hb).mpr hlt, rfl⟩

/-- The block containing byte `p` is in the block map when `p` is inside
the file. -/
theorem blockOf_mem_blkOffsets {size bsB p : Nat} (hb : 0 < bsB)
    (hp : p < size) : p / bsB * bsB ∈ blkOffsets size bsB :=
  (mem_blkOffsets hb _).mpr
    ⟨p / bsB, rfl, Nat.lt_of_le_of_lt (Nat.div_mul_le_self p bsB) hp⟩

theorem length_fileRead (f : List Nat) (pos n : Nat) :
    (fileRead f pos n).length = min n (f.length - pos) := by
  simp [fileRead]

theorem getElem?_fileRead (f : List Nat) (pos n : Nat) {i : Nat} (h : i < n) :
    (fileRead f pos n)[i]? = f[pos + i]? := by
  simp [fileRead, List.getElem?_take, h, List.getElem?_drop]

theorem length_fileWrite (f : List Nat) (pos : Nat) (buf : List Nat) :
    (fileWrite f pos buf).length = max f.length (pos + buf.length) := by
  simp only [fileWrite, List.length_append, List.length_take,
    List.length_replicate, List.length_drop]
  omega

theorem getElem?_fileWrite_left (f : List Nat) (pos : Nat) (buf : List Nat)
    {p : Nat} (h : p < pos) :
    (fileWrite f pos buf)[p]? = some (f.getD p 0) := by
  simp only [fileWrite]
  rw [List.getElem?_append_left (by simp; omega)]
  rw [List.getElem?_append_left (by simp; omega)]
  rw [List.getElem?_take, if_pos h, List.getD_eq_getElem?_getD,
    List.getElem?_append, List.getElem?_replicate]
  rcases Nat.lt_or_ge p f.length with hp | hp
  · rw [if_pos hp, List.getElem?_eq_getElem hp]
    rfl
  · rw [if_neg (by omega), if_pos (by omega), List.getElem?_eq_none hp]
    rfl

theorem getElem?_fileWrite_mid (f : List Nat) (pos : Nat) (buf : List Nat)
    {p : Nat} (h1 : pos ≤ p) (h2 : p < pos + buf.length) :
    (fileWrite f pos buf)[p]? = buf[p - pos]? := by
  simp only [fileWrite]
  rw [List.getElem?_append_left (by simp; omega)]
  rw [List.getElem?_append_right (by simp; omega)]
  congr 1
  simp
  omega

theorem getElem?_fileWrite_right (f : List Nat) (pos : Nat) (buf : List Nat)
    {p : Nat} (h : pos + buf.length ≤ p) :
    (fileWrite f pos buf)[p]? = f[p]? := by
  simp only [fileWrite]
  rw [List.getElem?_append_right (by simp; omega)]
  rw [List.getElem?_drop]
  rcases Nat.lt_or_ge p f.length with hp | hp
  · rw [List.getElem?_append]
    have harith : pos + buf.length +
        (p - (List.take pos (f ++ List.replicate (pos - f.length) 0) ++ buf).length) = p := by
      simp
      omega
    rw [harith, if_pos hp]
  · rw [List.getElem?_eq_none hp]
    apply List.getElem?_eq_none
    simp
    omega

theorem pop_back_eq_reverse (l : List Nat) : pop_back l = l.reverse := by
  match l with
  | [] => rw [pop_back]; rfl
  | x :: xs =>
    rw [pop_back, pop_back_eq_reverse ((x :: xs).dropLast)]
    have hne : (x :: xs) ≠ [] := by simp
    conv_rhs => rw [← List.dropLast_append_getLast hne]
    rw [List.reverse_append]
    simp [List.getLastD_eq_getLast?, List.getLast?_eq_getLast _ hne]
termination_by l.length
decreasing_by simp [List.length_dropLast]

theorem pop_back_perm (l : List Nat) : (pop_back l).Perm l := by
  rw [pop_back_eq_reverse]
  exact List.reverse_perm l

theorem conv_pop_perm (b : Bool) (l : List Nat) : (conv_pop b l).Perm l := by
  match b, l with
  | true, [] => rw [conv_pop]
  | false, [] => rw [conv_pop]
  | true, x :: xs =>
    rw [conv_pop]
    exact (conv_pop_perm false xs).cons x
  | false, x :: xs =>
    have hne : (x :: xs) ≠ [] := by simp
    have hg : (x :: xs).getLastD 0 = (x :: xs).getLast hne := by
      rw [List.getLastD_eq_getLast?, List.getLast?_eq_getLast _ hne]
      rfl
    rw [conv_pop, hg]
    refine ((conv_pop_perm true ((x :: xs).dropLast)).cons _).trans ?_
    conv_rhs => rw [← List.dropLast_append_getLast hne]
    exact (List.perm_append_singleton _ _).symm
termination_by l.length
decreasing_by
  all_goals simp [List.length_dropLast]

theorem cp_loop_eq_self {bsB : Nat} (hb : 0 < bsB) (src : List Nat) :
    cp_loop bsB src = src := by
  match src with
  | [] => rw [cp_loop]; simp
  | x :: xs =>
    rw [cp_loop, dif_neg (by simp [List.take_eq_nil_iff]; omega)]
    rw [cp_loop_eq_self hb ((x :: xs).drop bsB)]
    exact List.take_append_drop bsB (x :: xs)
termination_by src.length
decreasing_by simp; omega

/-- Invariant of the offset-wise copy loop: after the offsets in `seen` have
been copied, every destination byte inside a copied block equals the source
byte, every other destination byte is a zero left by seek-past-end padding,
the destination never exceeds the source in size, and it extends at least to
the end of every copied block.  Folding the remaining offsets then yields
the source exactly, provided `seen ++ offs` covers the whole block map. -/
theorem copy_offsets_invariant (src : List Nat) {bsB : Nat} (hb : 0 < bsB) :
    ∀ offs seen dst : List Nat,
      (seen ++ offs).Perm (blkOffsets src.length bsB) →
      dst.length ≤ src.length →
      (∀ o ∈ seen, o + (fileRead src o bsB).length ≤ dst.length) →
      (∀ p, p < dst.length →
          dst[p]? = if p / bsB * bsB ∈ seen then src[p]? else some 0) →
      offs.foldl (fun d off => fileWrite d off (fileRead src off bsB)) dst = src := by
  intro offs
  induction offs with
  | nil =>
    intro seen dst hperm hlen hseen hpt
    simp only [List.append_nil] at hperm
    simp only [List.foldl_nil]
    have hLle : src.length ≤ dst.length := by
      rcases Nat.eq_zero_or_pos src.length with hL0 | hLpos
      · omega
      · set n := ceilDiv src.length bsB with hn
        have hn1 : 0 < n := (lt_ceilDiv_iff hb).mpr (by simpa using hLpos)
        have ht_mem : (n - 1) * bsB ∈ blkOffsets src.length bsB := by
          refine (mem_blkOffsets hb _).mpr ⟨n - 1, rfl, ?_⟩
          exact (lt_ceilDiv_iff hb).mp (by omega)
        have ht_seen : (n - 1) * bsB ∈ seen := hperm.mem_iff.mpr ht_mem
        have hbound := hseen _ ht_seen
        rw [length_fileRead] at hbound
        have hcover : src.length ≤ n * bsB := le_ceilDiv_mul hb src.length
        have hsplit : n * bsB = (n - 1) * bsB + bsB := by
          have : n - 1 + 1 = n := by omega
          calc n * bsB = (n - 1 + 1) * bsB := by rw [this]
          _ = (n - 1) * bsB + bsB := by rw [Nat.succ_mul]
        omega
    have hlen_eq : dst.length = src.length := le_antisymm hlen hLle
    apply List.ext_getElem?
    intro p
    rcases Nat.lt_or_ge p dst.length with hp | hp
    · have h1 := hpt p hp
      have hmem : p / bsB * bsB ∈ seen :=
        hperm.mem_iff.mpr (blockOf_mem_blkOffsets hb (by omega))
      rwa [if_pos hmem] at h1
    · rw [List.getElem?_eq_none hp, List.getElem?_eq_none (by omega)]
  | cons off rest ih =>
    intro seen dst hperm hlen hseen hpt
    simp only [List.foldl_cons]
    set buf := fileRead src off bsB with hbuf
    have hoff_mem : off ∈ blkOffsets src.length bsB :=
      hperm.mem_iff.mp (by simp)
    obtain ⟨k, hk, hoffL⟩ := (mem_blkOffsets hb off).mp hoff_mem
    have hbuf_len : buf.length = min bsB (src.length - off) := length_fileRead ..
    have hbuf_pos : 0 < buf.length := by omega
    have hend : off + buf.length ≤ src.length := by omega
    apply ih (seen ++ [off])
    · rw [List.append_assoc]
      simpa using hperm
    · rw [length_fileWrite]
      omega
    · intro o ho
      rw [length_fileWrite]
      rcases List.mem_append.mp ho with ho' | ho'
      · have h2 := hseen o ho'
        rw [length_fileRead] at h2 ⊢
        omega
      · have ho2 : o = off := by simpa using ho'
        subst ho2
        rw [← hbuf]
        omega
    · intro p hp
      rw [length_fileWrite] at hp
      have hpL : p < src.length := by omega
      have hq1 : p / bsB * bsB ≤ p := Nat.div_mul_le_self p bsB
      have hq2 : p / bsB * bsB + p % bsB = p := Nat.div_add_mod' p bsB
      have hq3 : p % bsB < bsB := Nat.mod_lt p hb
      rcases Nat.lt_or_ge p off with hcase | hcase
      · -- before the block just written: the old byte (or padding zero)
        rw [getElem?_fileWrite_left _ _ _ hcase]
        have hqne : p / bsB * bsB ≠ off := by omega
        have hcond : (p / bsB * bsB ∈ seen ++ [off]) ↔ p / bsB * bsB ∈ seen := by
          simp [hqne]
        rcases Nat.lt_or_ge p dst.length with hpd | hpd
        · have h1 := hpt p hpd
          by_cases hmem : p / bsB * bsB ∈ seen
          · rw [if_pos hmem] at h1
            rw [if_pos (hcond.mpr hmem)]
            rw [List.getD_eq_getElem?_getD, h1, List.getElem?_eq_getElem hpL]
            rfl
          · rw [if_neg hmem] at h1
            rw [if_neg (fun hc => hmem (hcond.mp hc))]
            rw [List.getD_eq_getElem?_getD, h1]
            rfl
        · have hmem : p / bsB * bsB ∉ seen := by
            intro hmem
            have := hseen _ hmem
            rw [length_fileRead] at this
            omega
          rw [if_neg (fun hc => hmem (hcond.mp hc))]
          rw [List.getD_eq_getElem?_getD, List.getElem?_eq_none hpd]
          rfl
      · rcases Nat.lt_or_ge p (off + buf.length) with hcase2 | hcase2
        · -- inside the block just written: the fresh source byte
          rw [getElem?_fileWrite_mid _ _ _ hcase hcase2]
          have hqoff : p / bsB = k := by
            apply Nat.div_eq_of_lt_le (by omega)
            rw [Nat.succ_mul]
            omega
          have hcond : p / bsB * bsB ∈ seen ++ [off] := by
            rw [hqoff, ← hk]
            simp
          rw [if_pos hcond, hbuf]
          rw [getElem?_fileRead _ _ _ (by omega)]
          congr 1
          omega
        · -- beyond the block just written: the old byte
          rw [getElem?_fileWrite_right _ _ _ hcase2]
          have hpd : p < dst.length := by omega
          have h1 := hpt p hpd
          have hqne : p / bsB * bsB ≠ off := by
            intro hq
            omega
          have hcond : (p / bsB * bsB ∈ seen ++ [off]) ↔ p / bsB * bsB ∈ seen := by
            simp [hqne]
          by_cases hmem : p / bsB * bsB ∈ seen
          · rw [if_pos hmem] at h1
            rw [if_pos (hcond.mpr hmem)]
            exact h1
          · rw [if_neg hmem] at h1
            rw [if_neg (fun hc => hmem (hcond.mp hc))]
            exact h1

/-- Copying the blocks of the source's block map in any order onto an empty
(`O_TRUNC`) destination reproduces the source exactly. -/
theorem copy_offsets_eq (src : List Nat) {bsB : Nat} (hb : 0 < bsB)
    {offs : List Nat} (hperm : offs.Perm (blkOffsets src.length bsB)) :
    copy_offsets src bsB offs = src := by
  apply copy_offsets_invariant src hb offs [] []
  · simpa using hperm
  · exact Nat.zero_le _
  · intro o ho
    simp at ho
  · intro p hp
    simp at hp

/-- Model of `cp` from src/lib/pyio_win32.py lines 158-194, as a function from the
source file's bytes to the destination file's final bytes.  Unlike the
POSIX backend it performs NO `_samefile` check: it resolves a directory
destination, immediately opens the destination with
`win32file.CreateFile(..., CREATE_ALWAYS, ...)` — which truncates an
existing file to zero length — and only then opens the source for reading
and streams it block by block.  When `samefile` holds, the `CREATE_ALWAYS`
truncation has already emptied the file before the source is opened, so
the copy sees an empty source and produces an empty destination; the model
lets the copy proceed (Windows share-mode enforcement, which could instead
make the second open fail with an IOError, is not modelled — either way
the content is destroyed and no InvalidArgument is raised). -/
def cp_win32 (samefile : Bool) (src : List Nat) (bs : Nat) : List Nat :=
  let srcContent := if samefile then [] else src
  cp_loop (bs * 1024) srcContent

/-- File-descriptor state of the process: the next descriptor number the OS
will hand out and the list of currently open descriptors. -/
structure FdSt where
  next : Nat
  openFds : List Nat
  deriving DecidableEq

/-- Effect of `os.open`: returns a fresh descriptor and marks it open. -/
def fdOpen (s : FdSt) : Nat × FdSt :=
  (s.next, FdSt.mk (s.next + 1) (s.next :: s.openFds))

/-- Effect of `os.close`: removes a descriptor from the open set. -/
def fdClose (fd : Nat) (s : FdSt) : FdSt :=
  FdSt.mk s.next (s.openFds.erase fd)

/-- Descriptor lifecycle of `cp` from src/lib/pyio.py lines 240-263.
`openSrcOk`, `openDstOk` and `bodyOk` say whether `os.open(src, ...)`,
`os.open(dst, ...)` and the read/write/fsync body succeed.  The code opens
the source, opens the destination inside `try`/`except` (closing the source
and re-raising when that open fails), and runs the copy body inside
`try`/`finally` that closes both descriptors.  The returned `Bool` is true
when the call returns normally; the `FdSt` is the descriptor state at
exit. -/
def cp_fds (openSrcOk openDstOk bodyOk : Bool) (s : FdSt) : Bool × FdSt :=
  if !openSrcOk then (false, s)
  else
    let p1 := fdOpen s
    if !openDstOk then (false, fdClose p1.1 p1.2)
    else
      let p2 := fdOpen p1.2
      (bodyOk, fdClose p2.1 (fdClose p1.1 p2.2))

/-- Descriptor lifecycle of `cp` from src/pyio.py lines 248-263: a single
`try` block opens both descriptors and runs the copy, and the `finally`
runs `os.close(fsrc); os.close(fdst)`.  When `os.open(dst, ...)` raises,
the `finally` still closes `fsrc` and then raises `NameError` on the
unbound `fdst` (no descriptor is leaked); when `os.open(src, ...)` raises,
no descriptor was opened at all. -/
def cp_fds_old (openSrcOk openDstOk bodyOk : Bool) (s : FdSt) : Bool × FdSt :=
  if !openSrcOk then (false, s)
  else
    let p1 := fdOpen s
    if !openDstOk then (false, fdClose p1.1 p1.2)
    else
      let p2 := fdOpen p1.2
      (bodyOk, fdClose p2.1 (fdClose p1.1 p2.2))

/-- Descriptor lifecycle of `w_zero` from src/pyio.py lines 113-129:
`os.open` inside the `try`, write loop and optional fsync, `finally:
os.close(fh)`.  When the open itself raises, nothing was opened (the
`finally` raises `NameError` on the unbound `fh` but closes no
descriptor). -/
def w_zero_fds (openOk bodyOk : Bool) (s : FdSt) : Bool × FdSt :=
  if !openOk then (false, s)
  else
    let p := fdOpen s
    (bodyOk, fdClose p.1 p.2)

/-- The number of worker threads `main` of src/r_all.py starts at lines
110-115: `for i in range(args.threadct+1): ... threads.append(t);
t.start()`. -/
def numThreads (threadct : Nat) : Nat :=
  (List.range (threadct + 1)).length

/-- The worker loop `read_thr` of src/r_all.py lines 69-88, for one worker
owning the whole queue: take the next file off the shared iterator (under
the lock), read it sequentially (`r_seq`), and return when the iterator
raises `StopIteration`.  The result is the list of per-file byte sequences
the worker read before exiting. -/
def read_thr (queue : List (List Nat)) (blocksz : Nat) : List (List Nat) :=
  match queue with
  | [] => []
  | f :: rest => cp_loop (blocksz * 1024) f :: read_thr rest blocksz

theorem blk_map_pos (size : Nat) {bs : Nat} (hbs : 1 ≤ bs) :
    blk_map size (bs : Int) = some (blkOffsets size (bs * 1024)) := by
  unfold blk_map
  rw [if_neg (by omega), if_neg (by omega)]
  have h : ((bs : Int) * 1024).toNat = bs * 1024 := by omega
  rw [h]

theorem fileWrite_nil (pos : Nat) (buf : List Nat) :
    fileWrite [] pos buf = List.replicate pos 0 ++ buf := by
  simp [fileWrite, List.take_replicate, List.drop_replicate]

theorem length_flatten_replicate (n : Nat) (l : List Nat) :
    (List.replicate n l).flatten.length = n * l.length := by
  induction n with
  | zero => simp
  | succ k ih =>
    rw [List.replicate_succ, List.flatten_cons, List.length_append, ih,
      Nat.succ_mul]
    omega

/-- C1: for every source file, every block size > 0 (in KB, as the code
takes it) and every copy order — sequential `cp`, converging `cp_conv`,
random-shuffle `cp_rand` (for any permutation the shuffle may produce) —
a successful copy leaves the destination byte-for-byte identical to the
source, and in particular of the same size. -/
theorem copy_byte_identical (src : List Nat) (bs : Nat)
    (shuffle : List Nat → List Nat) (hbs : 1 ≤ bs)
    (hshuffle : ∀ l : List Nat, (shuffle l).Perm l) :
    cp false src bs = some src ∧ cp_conv false src bs = some src ∧
      cp_rand false src bs shuffle = some src := by
  have hbsB : 0 < bs * 1024 := by omega
  refine ⟨?_, ?_, ?_⟩
  · simp [cp, cp_loop_eq_self hbsB]
  · simp only [cp_conv, Bool.false_eq_true, if_false, blk_map_pos src.length hbs,
      Option.map_some']
    exact congrArg some (copy_offsets_eq src hbsB (conv_pop_perm true _))
  · simp only [cp_rand, Bool.false_eq_true, if_false, blk_map_pos src.length hbs,
      Option.map_some']
    refine congrArg some (copy_offsets_eq src hbsB ?_)
    exact (pop_back_perm _).trans (hshuffle _)

theorem copy_byte_identical_witness :
    ((1 : Nat) ≤ 1 ∧ ∀ l : List Nat, (id l).Perm l) ∧
      (cp false [7] 1 = some [7] ∧ cp_conv false [7] 1 = some [7] ∧
        cp_rand false [7] 1 id = some [7]) :=
  ⟨⟨le_rfl, fun l => List.Perm.refl l⟩,
    copy_byte_identical [7] 1 id le_rfl (fun l => List.Perm.refl l)⟩

/-- C2: for every file size `L ≥ 0` and block size > 0, the block map has
exactly `⌈L / blockSizeBytes⌉` entries, is strictly increasing with
consecutive entries exactly `blockSizeBytes` apart, starts at offset 0 and
its last offset is `< L`; for a zero-length file it is empty.  (The block
size in bytes is `bs * 1024`, the code scaling its KB argument.) -/
theorem blk_map_shape (L : Nat) (bs : Nat) (hbs : 1 ≤ bs) :
    ∃ m, blk_map L (bs : Int) = some m ∧
      m.length = ⌈(L : ℚ) / ((bs : ℚ) * 1024)⌉₊ ∧
      m.Pairwise (· < ·) ∧
      m.Chain' (fun a b => b = a + bs * 1024) ∧
      (L = 0 → m = []) ∧
      (0 < L → m.head? = some 0 ∧ ∃ t, m.getLast? = some t ∧ t < L) := by
  have hbsB : 0 < bs * 1024 := by omega
  refine ⟨blkOffsets L (bs * 1024), blk_map_pos L hbs, ?_, ?_, ?_, ?_, ?_⟩
  · rw [length_blkOffsets, ceilDiv_eq_ceil hbsB]
    congr 1
    push_cast
    ring
  · unfold blkOffsets
    refine List.Pairwise.map _ ?_ (List.pairwise_lt_range _)
    intro a b hab
    exact mul_lt_mul_of_pos_right hab hbsB
  · rw [List.chain'_iff_get]
    intro i hi
    rw [List.get_eq_getElem, List.get_eq_getElem, getElem_blkOffsets,
      getElem_blkOffsets]
    ring
  · intro hL0
    subst hL0
    unfold blkOffsets
    rw [show ceilDiv 0 (bs * 1024) = 0 from Nat.div_eq_of_lt (by omega)]
    rfl
  · intro hLpos
    have hn : 0 < (blkOffsets L (bs * 1024)).length := by
      rw [length_blkOffsets]
      exact (lt_ceilDiv_iff hbsB).mpr (by simpa using hLpos)
    refine ⟨?_, ?_⟩
    · rw [List.head?_eq_getElem?, List.getElem?_eq_getElem hn, getElem_blkOffsets]
      simp
    · refine ⟨((blkOffsets L (bs * 1024)).length - 1) * (bs * 1024), ?_, ?_⟩
      · have hidx : (blkOffsets L (bs * 1024)).length - 1 <
            (blkOffsets L (bs * 1024)).length := by omega
        rw [List.getLast?_eq_getElem?, List.getElem?_eq_getElem hidx,
          getElem_blkOffsets]
      · have hn' : 0 < ceilDiv L (bs * 1024) := by
          rw [length_blkOffsets] at hn
          exact hn
        rw [length_blkOffsets]
        exact (lt_ceilDiv_iff hbsB).mp (by omega)

theorem blk_map_shape_witness :
    (1 : Nat) ≤ 1 ∧
      ∃ m, blk_map 2500 ((1 : Nat) : Int) = some m ∧
        m.length = ⌈((2500 : Nat) : ℚ) / (((1 : Nat) : ℚ) * 1024)⌉₊ ∧
        m.Pairwise (· < ·) ∧
        m.Chain' (fun a b => b = a + 1 * 1024) ∧
        ((2500 : Nat) = 0 → m = []) ∧
        (0 < (2500 : Nat) → m.head? = some 0 ∧ ∃ t, m.getLast? = some t ∧ t < 2500) :=
  ⟨le_rfl, blk_map_shape 2500 1 le_rfl⟩

/-- C3: one pass of the random-shuffle pattern visits exactly the offsets
of the file's block map — the visited sequence is a permutation of the map,
so every offset appears exactly once, none skipped, none repeated.
`r_rand` reads at exactly that sequence, and `cp_rand` copies exactly the
blocks of that sequence. -/
theorem rand_pass_visits_each_once (fsize bs : Nat)
    (shuffle : List Nat → List Nat) (hbs : 1 ≤ bs)
    (hshuffle : ∀ l : List Nat, (shuffle l).Perm l) :
    ∃ m, blk_map fsize (bs : Int) = some m ∧
      ∃ v, r_rand fsize bs shuffle = some v ∧ v.Perm m ∧
        ∀ src : List Nat, src.length = fsize →
          cp_rand false src bs shuffle = some (copy_offsets src (bs * 1024) v) := by
  refine ⟨blkOffsets fsize (bs * 1024), blk_map_pos fsize hbs,
    rand_order shuffle (blkOffsets fsize (bs * 1024)), ?_, ?_, ?_⟩
  · simp [r_rand, blk_map_pos fsize hbs]
  · exact (pop_back_perm _).trans (hshuffle _)
  · intro src hsrc
    simp [cp_rand, hsrc, blk_map_pos fsize hbs]

theorem rand_pass_visits_each_once_witness :
    ((1 : Nat) ≤ 1 ∧ ∀ l : List Nat, (id l).Perm l) ∧
      (∃ m, blk_map 2048 ((1 : Nat) : Int) = some m ∧
        ∃ v, r_rand 2048 1 id = some v ∧ v.Perm m ∧
          ∀ src : List Nat, src.length = 2048 →
            cp_rand false src 1 id = some (copy_offsets src (1 * 1024) v)) :=
  ⟨⟨le_rfl, fun l => List.Perm.refl l⟩,
    rand_pass_visits_each_once 2048 1 id le_rfl (fun l => List.Perm.refl l)⟩

/-- C4: the converging traversal visits a permutation of the block map —
no offset skipped, none repeated — and on a 4-entry map it visits the
index order [0,3,1,2], on a 5-entry map the index order [0,4,1,3,2], the
middle entry of an odd-length map being visited last (shown both on raw
lists and on the block maps of 4096- and 5120-byte files with 1 KB
blocks). -/
theorem conv_pass_visits_each_once (fsize bs : Nat) (m : List Nat)
    (hbs : 1 ≤ bs) (hm : blk_map fsize (bs : Int) = some m) :
    (∃ v, r_conv fsize bs = some v ∧ v.Perm m) ∧
      conv_pop true [0, 1, 2, 3] = [0, 3, 1, 2] ∧
      conv_pop true [0, 1, 2, 3, 4] = [0, 4, 1, 3, 2] ∧
      r_conv 4096 1 = some [0, 3072, 1024, 2048] ∧
      r_conv 5120 1 = some [0, 4096, 1024, 3072, 2048] := by
  have h4 : blk_map 4096 (1 : Int) = some [0, 1024, 2048, 3072] := by
    decide
  have h5 : blk_map 5120 (1 : Int) = some [0, 1024, 2048, 3072, 4096] := by
    decide
  refine ⟨⟨conv_pop true m, ?_, conv_pop_perm true m⟩, by simp [conv_pop],
    by simp [conv_pop], ?_, ?_⟩
  · simp [r_conv, hm]
  · simp [r_conv, h4, conv_pop]
  · simp [r_conv, h5, conv_pop]

theorem conv_pass_visits_each_once_witness :
    ((1 : Nat) ≤ 1 ∧ blk_map 4096 ((1 : Nat) : Int) = some [0, 1024, 2048, 3072]) ∧
      ((∃ v, r_conv 4096 1 = some v ∧ v.Perm [0, 1024, 2048, 3072]) ∧
        conv_pop true [0, 1, 2, 3] = [0, 3, 1, 2] ∧
        conv_pop true [0, 1, 2, 3, 4] = [0, 4, 1, 3, 2] ∧
        r_conv 4096 1 = some [0, 3072, 1024, 2048] ∧
        r_conv 5120 1 = some [0, 4096, 1024, 3072, 2048]) :=
  ⟨⟨le_rfl, by decide⟩,
    conv_pass_visits_each_once 4096 1 [0, 1024, 2048, 3072] le_rfl (by decide)⟩

/-- C5: `w_rand_blk` fails (ValueError) precisely when the block size in
bytes exceeds the file's current size — equality succeeds — and otherwise,
for the offset `randint(0, size - blksz)` drew (any value in that closed
range, i.e. `off + bs*1024 ≤ size`), it succeeds and writes exactly
`bs * 1024` bytes — the random buffer — at offset `off`. -/
theorem w_rand_blk_size_check (file : List Nat) (bs : Nat) (rnd : List Nat)
    (off : Nat) (hrnd : rnd.length = 1024) :
    (w_rand_blk file bs rnd off = none ↔ file.length < bs * 1024) ∧
      (bs * 1024 ≤ file.length → off + bs * 1024 ≤ file.length →
        ∃ out, w_rand_blk file bs rnd off = some out ∧
          fileRead out off (bs * 1024) = (List.replicate bs rnd).flatten ∧
          (fileRead out off (bs * 1024)).length = bs * 1024) := by
  have hbuf : ((List.replicate bs rnd).flatten).length = bs * 1024 := by
    rw [length_flatten_replicate, hrnd]
  constructor
  · by_cases hc : file.length < bs * 1024 <;> simp [w_rand_blk, hc]
  · intro h1 _h2
    refine ⟨fileWrite [] off ((List.replicate bs rnd).flatten), ?_, ?_, ?_⟩
    · simp [w_rand_blk, Nat.not_lt.mpr h1]
    · have hdrop : (List.replicate off (0 : Nat) ++
          (List.replicate bs rnd).flatten).drop off = (List.replicate bs rnd).flatten :=
        List.drop_left' (by rw [List.length_replicate])
      rw [fileWrite_nil]
      unfold fileRead
      rw [hdrop, ← hbuf, List.take_length]
    · rw [length_fileRead, length_fileWrite]
      simp only [List.length_nil, Nat.zero_max, hbuf]
      omega

theorem w_rand_blk_size_check_witness :
    (List.replicate 1024 (7 : Nat)).length = 1024 ∧
      ((w_rand_blk (List.replicate 2048 3) 1 (List.replicate 1024 7) 1024 = none ↔
          (List.replicate 2048 (3 : Nat)).length < 1 * 1024) ∧
        (∃ out, w_rand_blk (List.replicate 2048 3) 1 (List.replicate 1024 7) 1024 =
            some out ∧
          fileRead out 1024 (1 * 1024) = (List.replicate 1 (List.replicate 1024 (7 : Nat))).flatten ∧
          (fileRead out 1024 (1 * 1024)).length = 1 * 1024)) :=
  ⟨by rw [List.length_replicate],
    (w_rand_blk_size_check (List.replicate 2048 3) 1 (List.replicate 1024 7) 1024
      (by rw [List.length_replicate])).1,
    (w_rand_blk_size_check (List.replicate 2048 3) 1 (List.replicate 1024 7) 1024
      (by rw [List.length_replicate])).2
      (by rw [List.length_replicate]; omega) (by rw [List.length_replicate])⟩

/-- C10: `w_rand_blk` opens the target with O_CREAT|O_TRUNC|O_WRONLY,
truncating it before seeking.  On success the file is `off` zero bytes
followed by the written block: its size is `off + bs*1024` (at most the
original size), every byte before `off` reads as zero, and none of the
original content survives — the result does not depend on the original
bytes at all, only on their count. -/
theorem w_rand_blk_truncates (file : List Nat) (bs : Nat) (rnd : List Nat)
    (off : Nat) (hrnd : rnd.length = 1024) (hsz : bs * 1024 ≤ file.length)
    (hoff : off + bs * 1024 ≤ file.length) :
    ∃ out, w_rand_blk file bs rnd off = some out ∧
      out = List.replicate off 0 ++ (List.replicate bs rnd).flatten ∧
      out.length = off + bs * 1024 ∧ out.length ≤ file.length ∧
      (∀ p, p < off → out[p]? = some 0) ∧
      (∀ file' : List Nat, file'.length = file.length →
        w_rand_blk file' bs rnd off = w_rand_blk file bs rnd off) := by
  have hbuf : ((List.replicate bs rnd).flatten).length = bs * 1024 := by
    rw [length_flatten_replicate, hrnd]
  refine ⟨List.replicate off 0 ++ (List.replicate bs rnd).flatten, ?_, rfl, ?_, ?_, ?_, ?_⟩
  · simp [w_rand_blk, Nat.not_lt.mpr hsz, fileWrite_nil]
  · simp [hbuf]
  · simp [hbuf]
    omega
  · intro p hp
    rw [List.getElem?_append_left (by simpa using hp), List.getElem?_replicate,
      if_pos hp]
  · intro file' hlen
    simp [w_rand_blk, hlen]

theorem w_rand_blk_truncates_witness :
    ((List.replicate 1024 (9 : Nat)).length = 1024 ∧
        1 * 1024 ≤ (List.replicate 4096 (5 : Nat)).length ∧
        512 + 1 * 1024 ≤ (List.replicate 4096 (5 : Nat)).length) ∧
      (∃ out, w_rand_blk (List.replicate 4096 5) 1 (List.replicate 1024 9) 512 =
          some out ∧
        out = List.replicate 512 0 ++ (List.replicate 1 (List.replicate 1024 (9 : Nat))).flatten ∧
        out.length = 512 + 1 * 1024 ∧
        out.length ≤ (List.replicate 4096 (5 : Nat)).length ∧
        (∀ p, p < 512 → out[p]? = some 0) ∧
        (∀ file' : List Nat, file'.length = (List.replicate 4096 (5 : Nat)).length →
          w_rand_blk file' 1 (List.replicate 1024 9) 512 =
            w_rand_blk (List.replicate 4096 5) 1 (List.replicate 1024 9) 512)) :=
  ⟨⟨by rw [List.length_replicate], by rw [List.length_replicate]; omega,
      by rw [List.length_replicate]; omega⟩,
    w_rand_blk_truncates (List.replicate 4096 5) 1 (List.replicate 1024 9) 512
      (by rw [List.length_replicate]) (by rw [List.length_replicate]; omega)
      (by rw [List.length_replicate]; omega)⟩

/-- C6 (divergence): the POSIX backend's `cp`, `cp_conv` and `cp_rand` all
reject a same-file copy before touching the destination, but the win32
backend's `cp` performs no same-file check: invoked with source and
destination resolving to the same file it truncates that file via
`CREATE_ALWAYS` and returns an empty destination without any error — for
every source content and block size.  Same-file rejection is therefore NOT
preserved by all backends. -/
theorem win32_cp_samefile_divergence :
    cp true [1, 2, 3] 1 = none ∧ cp_conv true [1, 2, 3] 1 = none ∧
      cp_rand true [1, 2, 3] 1 id = none ∧ cp_win32 true [1, 2, 3] 1 = [] ∧
      ∀ (src : List Nat) (bs : Nat), cp_win32 true src bs = [] := by
  refine ⟨rfl, rfl, rfl, ?_, ?_⟩
  · simp only [cp_win32, if_pos]
    exact cp_loop_eq_self (by omega) []
  · intro src bs
    simp only [cp_win32, if_pos]
    rw [cp_loop]
    simp

/-- C7: every modelled IO primitive closes every descriptor it opened on
every exit path: for `cp` (both the src/lib/pyio.py and the src/pyio.py
variant) whether the source open, the destination open or the copy body
fails or succeeds — including the path where the destination open fails
after the source was opened — and for `w_zero` whether the create or the
write fails or succeeds, the set of open descriptors at exit is empty. -/
theorem primitives_close_all_fds (openSrcOk openDstOk bodyOk : Bool) :
    (cp_fds openSrcOk openDstOk bodyOk (FdSt.mk 0 [])).2.openFds = [] ∧
      (cp_fds_old openSrcOk openDstOk bodyOk (FdSt.mk 0 [])).2.openFds = [] ∧
      (w_zero_fds openSrcOk bodyOk (FdSt.mk 0 [])).2.openFds = [] := by
  revert openSrcOk openDstOk bodyOk
  decide

/-- C8 (counterexample): `_blk_map` does not fail for every non-positive
block size — with blockSize = -1 KB and a 1024-byte file it returns an
empty block map, raising nothing. -/
theorem blk_map_negative_no_error :
    blk_map 1024 (-1) = some [] ∧ (blk_map 1024 (-1)).isSome = true := by
  decide

/-- C8 (amended): `_blk_map` performs no block-size validation.  For
blockSize = 0 it fails, but with a ZeroDivisionError from `size/blksz`,
not an InvalidArgument check; for blockSize < 0 it silently returns an
empty block map; and for a zero-length file (any blockSize > 0) it
returns the empty sequence. -/
theorem blk_map_no_validation (size : Nat) (bs : Int) :
    blk_map size 0 = none ∧ (bs < 0 → blk_map size bs = some []) ∧
      (0 < bs → blk_map 0 bs = some []) := by
  refine ⟨by simp [blk_map], ?_, ?_⟩
  · intro hneg
    unfold blk_map
    rw [if_neg (by omega), if_pos (by omega)]
  · intro hpos
    unfold blk_map
    rw [if_neg (by omega), if_neg (by omega)]
    unfold blkOffsets
    rw [show ceilDiv 0 (bs * 1024).toNat = 0 from Nat.div_eq_of_lt (by omega)]
    rfl

theorem blk_map_no_validation_witness :
    ((-1 : Int) < 0 ∧ blk_map 2048 (-1) = some []) ∧
      ((0 : Int) < 2 ∧ blk_map 0 2 = some []) :=
  ⟨⟨by decide, (blk_map_no_validation 2048 (-1)).2.1 (by decide)⟩,
    ⟨by decide, (blk_map_no_validation 0 2).2.2 (by decide)⟩⟩

/-- C9 (divergence): `main` of src/r_all.py spawns `threadct + 1` worker
threads — one more than the requested thread count (`range(threadct+1)`),
so for `-t 4` five workers start.  Each worker does exit its loop exactly
when the shared queue is exhausted, having consumed every element it was
handed. -/
theorem spawn_count_and_worker_exit (threadct : Nat) (queue : List (List Nat))
    (blocksz : Nat) :
    numThreads threadct = threadct + 1 ∧ numThreads 4 = 5 ∧
      (read_thr queue blocksz).length = queue.length := by
  refine ⟨by simp [numThreads], by simp [numThreads], ?_⟩
  induction queue with
  | nil => simp [read_thr]
  | cons f rest ih => simp [read_thr, ih]

end Pyio
